import Mathlib

/-!
# TheConstitution: elastic constants, Voigt encoding, strain/stress conversion,
polar decomposition, tensor expansion

A shallow embedding of `src/utils.h` (namespace `TC`).

* Scalars: the template parameter `Scalar` is a field `K` (exact arithmetic).  The
  literals `2.` and `.5` are `2` and `1/2`.  Where the source calls `sqrt`, the
  square root is passed as a function `sqrt : K → K`; the theorems instantiate it
  with `Real.sqrt` over `ℝ`.
* `Eigen::Matrix<Scalar, r, c>` is `Matrix (Fin r) (Fin c) K`; a column vector
  `Eigen::Matrix<Scalar, L, 1>` is `Fin L → K`.
* A `static_assert` that fails, a fixed-size mismatch and an out-of-range coefficient
  access are all modelled by the result `none`.
* `Eigen::SelfAdjointEigenSolver` is library code: the eigenvectors and eigenvalues it
  computes are taken as data, and its `operatorSqrt`/`operatorInverseSqrt` are modelled.
* A compile-time member of a matrix type is looked up by its name, letter for letter;
  a name that the type does not declare has no value and the shape built from it is `none`.
-/

open Matrix

namespace TC

variable {K : Type} [Field K]

/-! ## Eigen access primitives -/

/-- Checked coefficient access `m(row, col)` on a fixed-size matrix: Eigen asserts
`row < rows` and `col < cols`; a failed assertion is `none`. -/
def coeff {r c : Nat} (m : Matrix (Fin r) (Fin c) K) (row col : Nat) : Option K :=
  if h : row < r ∧ col < c then some (m ⟨row, h.1⟩ ⟨col, h.2⟩) else none

/-- Conversion of a fixed-size column vector of `m` rows to one of `n` rows, as done
when a value is returned under another fixed-size type: accepted only when `m = n`. -/
def fixedCast {m : Nat} (n : Nat) (v : Fin m → K) : Option (Fin n → K) :=
  if h : n = m then some (fun i => v (Fin.cast h i)) else none

/-! ## Voigt functions -/

/-- Source `vtrace`: `vec.head<3>().sum()`, under `static_assert(Rows > 3)`. -/
def vtrace {L : Nat} (vec : Fin L → K) : Option K :=
  if h : 3 < L then
    some (∑ i : Fin 3, vec (Fin.castLE (Nat.le_of_lt h) i))
  else none

/-- Source `videntity`: zero vector whose head of length 3 is set to `1,1,1`, under
`static_assert(Length > 3)`. -/
def videntity (L : Nat) : Option (Fin L → K) :=
  if 3 < L then some (fun i => if i.val < 3 then 1 else 0) else none

/-- Source `vmult_off_diag`: a copy of `vec` whose tail of length `L - 3` is multiplied
by `scale`, under `static_assert(Rows > 3)`. -/
def vmult_off_diag {L : Nat} (vec : Fin L → K) (scale : K) : Option (Fin L → K) :=
  if 3 < L then some (fun i => if 3 ≤ i.val then vec i * scale else vec i) else none

/-- The default value of the argument `scale` of `vmult_off_diag`. -/
def vmult_off_diag_default_scale : K := 2

/-- Eigen `norm()`: the square root of the sum of the squared coefficients. -/
def euclideanNorm (sqrt : K → K) {L : Nat} (v : Fin L → K) : K :=
  sqrt (∑ i, v i * v i)

/-- Source `vnorm`: `vmult_off_diag(vec, sqrt(2)).norm()`, under
`static_assert(Rows > 3)`. -/
def vnorm (sqrt : K → K) {L : Nat} (vec : Fin L → K) : Option K :=
  if 3 < L then (vmult_off_diag vec (sqrt 2)).map (euclideanNorm sqrt) else none

/-- Source `vprod`: `matrix * vmult_off_diag(vector)`, under
`static_assert(M::Cols == V::Rows)`; the product has `r` rows and is returned under the
type of `vector`. -/
def vprod {r c L : Nat} (matrix : Matrix (Fin r) (Fin c) K) (vector : Fin L → K) :
    Option (Fin L → K) :=
  if h : c = L then
    (vmult_off_diag vector vmult_off_diag_default_scale).bind
      (fun w => fixedCast L (matrix *ᵥ (fun j => w (Fin.cast h j))))
  else none

/-! ## Polar decompositions -/

/-- State of an `Eigen::SelfAdjointEigenSolver` after its computation: the matrix of
eigenvectors (one per column) and the vector of eigenvalues. -/
structure SelfAdjointEigenSolver (n : Nat) (K : Type) where
  /-- Eigen `m_eivec`. -/
  eivec : Matrix (Fin n) (Fin n) K
  /-- Eigen `m_eivalues`. -/
  eivalues : Fin n → K

/-- What Eigen documents of the solver run on a selfadjoint matrix `A`, in exact
arithmetic: the eigenvectors are orthonormal and `A = V * D * Vᵀ`. -/
def SelfAdjointEigenSolver.Decomposes {n : Nat} (es : SelfAdjointEigenSolver n K)
    (A : Matrix (Fin n) (Fin n) K) : Prop :=
  es.eivecᵀ * es.eivec = 1 ∧ es.eivec * Matrix.diagonal es.eivalues * es.eivecᵀ = A

/-- Modelled from the spec: `SelfAdjointEigenSolver::operatorSqrt` is Eigen library code,
absent from the sources; the principal square root is
`m_eivec * m_eivalues.cwiseSqrt().asDiagonal() * m_eivec.adjoint()`. -/
def SelfAdjointEigenSolver.operatorSqrt (sqrt : K → K) {n : Nat}
    (es : SelfAdjointEigenSolver n K) : Matrix (Fin n) (Fin n) K :=
  es.eivec * Matrix.diagonal (fun i => sqrt (es.eivalues i)) * es.eivecᵀ

/-- Modelled from the spec: `SelfAdjointEigenSolver::operatorInverseSqrt` is Eigen library
code, absent from the sources; the principal inverse square root is
`m_eivec * m_eivalues.cwiseInverse().cwiseSqrt().asDiagonal() * m_eivec.adjoint()`. -/
def SelfAdjointEigenSolver.operatorInverseSqrt (sqrt : K → K) {n : Nat}
    (es : SelfAdjointEigenSolver n K) : Matrix (Fin n) (Fin n) K :=
  es.eivec * Matrix.diagonal (fun i => sqrt ((es.eivalues i)⁻¹)) * es.eivecᵀ

/-- Storage of the class `PolarDecompositionRU<Scalar, Dim>`. -/
structure PolarDecompositionRU (Dim : Nat) (K : Type) where
  /-- Rotation factor. -/
  R : Matrix (Fin Dim) (Fin Dim) K
  /-- Right stretch. -/
  U : Matrix (Fin Dim) (Fin Dim) K
  /-- Inverse of the right stretch. -/
  Uinv : Matrix (Fin Dim) (Fin Dim) K

/-- Constructor of `PolarDecompositionRU`: the solver is run on `Fᵀ * F`, then
`U = operatorSqrt()`, `Uinv = operatorInverseSqrt()`, `R = F * Uinv`.  The
`static_assert` on the size of `F` is the type of `F`. -/
def PolarDecompositionRU.construct (sqrt : K → K) {Dim : Nat}
    (solver : Matrix (Fin Dim) (Fin Dim) K → SelfAdjointEigenSolver Dim K)
    (F : Matrix (Fin Dim) (Fin Dim) K) : PolarDecompositionRU Dim K :=
  let eigensolver := solver (Fᵀ * F)
  let U := eigensolver.operatorSqrt sqrt
  let Uinv := eigensolver.operatorInverseSqrt sqrt
  { R := F * Uinv, U := U, Uinv := Uinv }

/-- Storage of the class `PolarDecompositionVR<Scalar, Dim>`. -/
structure PolarDecompositionVR (Dim : Nat) (K : Type) where
  /-- Rotation factor. -/
  R : Matrix (Fin Dim) (Fin Dim) K
  /-- Left stretch. -/
  V : Matrix (Fin Dim) (Fin Dim) K
  /-- Inverse of the left stretch. -/
  Vinv : Matrix (Fin Dim) (Fin Dim) K

/-- Constructor of `PolarDecompositionVR`: the solver is run on `F * Fᵀ`, then
`V = operatorSqrt()`, `Vinv = operatorInverseSqrt()`, `R = Vinv * F`. -/
def PolarDecompositionVR.construct (sqrt : K → K) {Dim : Nat}
    (solver : Matrix (Fin Dim) (Fin Dim) K → SelfAdjointEigenSolver Dim K)
    (F : Matrix (Fin Dim) (Fin Dim) K) : PolarDecompositionVR Dim K :=
  let eigensolver := solver (F * Fᵀ)
  let V := eigensolver.operatorSqrt sqrt
  let Vinv := eigensolver.operatorInverseSqrt sqrt
  { R := Vinv * F, V := V, Vinv := Vinv }

/-! ## Strain and stress conversions -/

/-- Source `StrainToVoigt` for a 3x3 tensor. -/
def StrainToVoigt (strain : Matrix (Fin 3) (Fin 3) K) : Fin 6 → K :=
  ![strain 0 0, strain 1 1, strain 2 2, 2 * strain 0 1, 2 * strain 1 2, 2 * strain 0 2]

/-- Source `StrainToVoigt` for a 2x2 tensor. -/
def StrainToVoigt2D (strain : Matrix (Fin 2) (Fin 2) K) : Fin 3 → K :=
  ![strain 0 0, strain 1 1, 2 * strain 0 1]

/-- Source `VoigtToStrain` for a vector of length 6. -/
def VoigtToStrain (voigt : Fin 6 → K) : Matrix (Fin 3) (Fin 3) K :=
  !![voigt 0, 1/2 * voigt 3, 1/2 * voigt 5;
     1/2 * voigt 3, voigt 1, 1/2 * voigt 4;
     1/2 * voigt 5, 1/2 * voigt 4, voigt 2]

/-- Source `VoigtToStrain` for a vector of length 3. -/
def VoigtToStrain2D (voigt : Fin 3 → K) : Matrix (Fin 2) (Fin 2) K :=
  !![voigt 0, 1/2 * voigt 2; 1/2 * voigt 2, voigt 1]

/-- Source `StressToVoigt` for a 3x3 tensor. -/
def StressToVoigt (strain : Matrix (Fin 3) (Fin 3) K) : Fin 6 → K :=
  ![strain 0 0, strain 1 1, strain 2 2, strain 0 1, strain 1 2, strain 0 2]

/-- Source `StressToVoigt` for a 2x2 tensor.  The declared result has 3 rows, but the body
fills a local vector of 6 rows from `strain(0,0), strain(1,1), strain(2,2), strain(0,1),
strain(1,2), strain(0,2)` (coefficients of a 2x2 matrix, read with the checked access)
and returns it under the 3-row type. -/
def StressToVoigt2D (strain : Matrix (Fin 2) (Fin 2) K) : Option (Fin 3 → K) := do
  let a ← coeff strain 0 0
  let b ← coeff strain 1 1
  let c ← coeff strain 2 2
  let d ← coeff strain 0 1
  let e ← coeff strain 1 2
  let f ← coeff strain 0 2
  let V : Fin 6 → K := ![a, b, c, d, e, f]
  fixedCast 3 V

/-- Source `VoigtToStress` for a vector of length 6. -/
def VoigtToStress (voigt : Fin 6 → K) : Matrix (Fin 3) (Fin 3) K :=
  !![voigt 0, voigt 3, voigt 5;
     voigt 3, voigt 1, voigt 4;
     voigt 5, voigt 4, voigt 2]

/-- Source `VoigtToStress` for a vector of length 3. -/
def VoigtToStress2D (voigt : Fin 3 → K) : Matrix (Fin 2) (Fin 2) K :=
  !![voigt 0, voigt 2; voigt 2, voigt 1]

/-! ## Elastic constants -/

/-- Source `lambda`: `E*nu / (1. + nu) / (1. - 2.*nu)`. -/
def lambda (E nu : K) : K := E * nu / (1 + nu) / (1 - 2 * nu)

/-- Source `mu`: `E/2. / (1. + nu)`. -/
def mu (E nu : K) : K := E / 2 / (1 + nu)

/-- Source `kappa`: `E/3. /(1. - 2.*nu)`. -/
def kappa (E nu : K) : K := E / 3 / (1 - 2 * nu)

/-- Source `E`: `mu * (3*lambda + 2*mu)/ (lambda + mu)`. -/
def E (lambda mu : K) : K := mu * (3 * lambda + 2 * mu) / (lambda + mu)

/-- Source `nu`: `0.5*lambda / (lambda + mu)`. -/
def nu (lambda mu : K) : K := 1/2 * lambda / (lambda + mu)

/-! ## Expander -/

/-- Compile-time integer members of the type `Eigen::Matrix<Scalar, r, c>` that the
expander names, looked up by name; a name that the type does not declare has no value. -/
def compileTimeMember (r c : Nat) (name : String) : Option Nat :=
  if name = "RowsAtCompileTime" then some r
  else if name = "ColsAtCompileTime" then some c
  else none

/-- Source class `expand_functor`: references to the argument (`p` by `q`) and to the
expansion pattern (`r` by `s`); `expRows = r` and `expCols = s`. -/
structure expand_functor (p q r s : Nat) (K : Type) where
  /-- The base matrix. -/
  arg : Matrix (Fin p) (Fin q) K
  /-- The expansion pattern. -/
  exp : Matrix (Fin r) (Fin s) K

/-- Source `expand_functor::operator()`:
`_arg(row/expRows, col/expCols) * _exp(row%expRows, col%expCols)`, with checked access. -/
def expand_functor.call {p q r s : Nat} (f : expand_functor p q r s K) (row col : Nat) :
    Option K := do
  let a ← coeff f.arg (row / r) (col / s)
  let b ← coeff f.exp (row % r) (col % s)
  pure (a * b)

/-- Source typedef `expand_functor::MatrixType`: the shape
`ArgType::RowsAtComplieTime * ExpandType::RowsAtCompileTime` by
`ArgType::ColsAtComplieTime * ExpandType::ColsAtComplieTime`, the member names taken
letter for letter from the source. -/
def expand_functor.MatrixType (p q r s : Nat) : Option (Nat × Nat) := do
  let argRows ← compileTimeMember p q "RowsAtComplieTime"
  let expRows ← compileTimeMember r s "RowsAtCompileTime"
  let argCols ← compileTimeMember p q "ColsAtComplieTime"
  let expCols ← compileTimeMember r s "ColsAtComplieTime"
  pure (argRows * expRows, argCols * expCols)

/-- A lazy `Eigen::CwiseNullaryOp` over an `expand_functor`: a shape and the functor that
computes each entry on demand. -/
structure CwiseNullaryOp (p q r s : Nat) (K : Type) where
  /-- Number of rows of the expression. -/
  rows : Nat
  /-- Number of columns of the expression. -/
  cols : Nat
  /-- The functor evaluated at each entry. -/
  functor : expand_functor p q r s K

/-- Entry `(i, j)` of a lazy expression, with checked access. -/
def CwiseNullaryOp.coeff {p q r s : Nat} (e : CwiseNullaryOp p q r s K) (i j : Nat) :
    Option K :=
  if i < e.rows ∧ j < e.cols then e.functor.call i j else none

/-- Source `expand_matrix`: `MatrixType::NullaryExpr(MatrixType::RowsAtCompileTime,
MatrixType::ColsAtCompileTime, Func(arg.derived(), exp.derived()))`. -/
def expand_matrix {p q r s : Nat} (arg : Matrix (Fin p) (Fin q) K)
    (exp : Matrix (Fin r) (Fin s) K) : Option (CwiseNullaryOp p q r s K) := do
  let shape ← expand_functor.MatrixType p q r s
  pure { rows := shape.1, cols := shape.2, functor := { arg := arg, exp := exp } }

/-! ## Sample inputs -/

/-- A symmetric 3x3 tensor with distinct off-diagonal entries. -/
def sampleSymm3 : Matrix (Fin 3) (Fin 3) K := !![1, 2, 3; 2, 4, 5; 3, 5, 6]

/-- A symmetric 2x2 tensor. -/
def sampleSymm2 : Matrix (Fin 2) (Fin 2) K := !![1, 2; 2, 3]

/-- The pure shear tensor in the xy plane. -/
def shearXY : Matrix (Fin 3) (Fin 3) K := !![0, 1, 0; 1, 0, 0; 0, 0, 0]

/-- A solver state with the canonical basis as eigenvectors and one eigenvalue `d`: the
eigen-decomposition of `d • 1`. -/
def scalarEigen (n : Nat) (d : K) : SelfAdjointEigenSolver n K :=
  { eivec := 1, eivalues := fun _ => d }

/-- The reflection of the third axis, of determinant `-1`. -/
def reflectZ : Matrix (Fin 3) (Fin 3) K := Matrix.diagonal ![1, 1, -1]

/-- The uniform dilation by `2`. -/
def dilate2 : Matrix (Fin 3) (Fin 3) K := Matrix.diagonal (fun _ => 2)

/-! ## Lemmas on vectors and sample inputs -/

theorem vec6_at_three {α : Type} (a b c d e f : α) : (![a, b, c, d, e, f] : Fin 6 → α) 3 = d :=
  rfl

theorem vec6_at_four {α : Type} (a b c d e f : α) : (![a, b, c, d, e, f] : Fin 6 → α) 4 = e :=
  rfl

theorem vec6_at_five {α : Type} (a b c d e f : α) : (![a, b, c, d, e, f] : Fin 6 → α) 5 = f :=
  rfl

theorem sampleSymm3_isSymm : (sampleSymm3 : Matrix (Fin 3) (Fin 3) K).IsSymm := by
  ext i j
  fin_cases i <;> fin_cases j <;> rfl

theorem sampleSymm2_isSymm : (sampleSymm2 : Matrix (Fin 2) (Fin 2) K).IsSymm := by
  ext i j
  fin_cases i <;> fin_cases j <;> rfl

theorem shearXY_isSymm : (shearXY : Matrix (Fin 3) (Fin 3) K).IsSymm := by
  ext i j
  fin_cases i <;> fin_cases j <;> rfl

/-- The 2D stress conversion never yields a vector: `strain(2,2)` is out of range. -/
theorem StressToVoigt2D_eq_none {α : Type} (T : Matrix (Fin 2) (Fin 2) α) :
    StressToVoigt2D T = none := by
  simp [StressToVoigt2D, coeff]

/-- Value of `vnorm` on a vector of length 6. -/
theorem vnorm_six (v : Fin 6 → ℝ) :
    vnorm Real.sqrt v = some (Real.sqrt (v 0 * v 0 + v 1 * v 1 + v 2 * v 2
      + 2 * (v 3 * v 3 + v 4 * v 4 + v 5 * v 5))) := by
  have h2 : Real.sqrt 2 * Real.sqrt 2 = 2 := Real.mul_self_sqrt (by norm_num)
  have h3 : (3 : Fin 6).val = 3 := rfl
  have h4 : (4 : Fin 6).val = 4 := rfl
  have h5 : (5 : Fin 6).val = 5 := rfl
  simp [vnorm, vmult_off_diag, euclideanNorm, Fin.sum_univ_six, h3, h4, h5]
  congr 1
  linear_combination (v 3 * v 3 + v 4 * v 4 + v 5 * v 5) * h2

/-- The squared Frobenius norm of a symmetric 3x3 tensor, by components. -/
theorem frobenius_sq_symm (T : Matrix (Fin 3) (Fin 3) ℝ) (hT : T.IsSymm) :
    ∑ i, ∑ j, T i j ^ 2 = T 0 0 ^ 2 + T 1 1 ^ 2 + T 2 2 ^ 2
      + 2 * (T 0 1 ^ 2 + T 1 2 ^ 2 + T 0 2 ^ 2) := by
  have h01 := hT.apply 0 1
  have h02 := hT.apply 0 2
  have h12 := hT.apply 1 2
  simp only [Fin.sum_univ_three, h01, h02, h12]
  ring

/-- Value of `vnorm` on the strain Voigt vector of a 3x3 tensor. -/
theorem vnorm_strain_value (T : Matrix (Fin 3) (Fin 3) ℝ) :
    vnorm Real.sqrt (StrainToVoigt T) = some (Real.sqrt (T 0 0 ^ 2 + T 1 1 ^ 2 + T 2 2 ^ 2
      + 8 * (T 0 1 ^ 2 + T 1 2 ^ 2 + T 0 2 ^ 2))) := by
  rw [vnorm_six]
  show some (Real.sqrt (T 0 0 * T 0 0 + T 1 1 * T 1 1 + T 2 2 * T 2 2
      + 2 * (2 * T 0 1 * (2 * T 0 1) + 2 * T 1 2 * (2 * T 1 2) + 2 * T 0 2 * (2 * T 0 2)))) = _
  congr 2
  ring

/-- Value of `vnorm` on the stress Voigt vector of a 3x3 tensor. -/
theorem vnorm_stress_value (T : Matrix (Fin 3) (Fin 3) ℝ) :
    vnorm Real.sqrt (StressToVoigt T) = some (Real.sqrt (T 0 0 ^ 2 + T 1 1 ^ 2 + T 2 2 ^ 2
      + 2 * (T 0 1 ^ 2 + T 1 2 ^ 2 + T 0 2 ^ 2))) := by
  rw [vnorm_six]
  show some (Real.sqrt (T 0 0 * T 0 0 + T 1 1 * T 1 1 + T 2 2 * T 2 2
      + 2 * (T 0 1 * T 0 1 + T 1 2 * T 1 2 + T 0 2 * T 0 2))) = _
  congr 2
  ring

/-- Entries of `shearXY` on and above the diagonal. -/
theorem shearXY_entries :
    (shearXY : Matrix (Fin 3) (Fin 3) ℝ) 0 0 = 0 ∧ (shearXY : Matrix (Fin 3) (Fin 3) ℝ) 1 1 = 0 ∧
    (shearXY : Matrix (Fin 3) (Fin 3) ℝ) 2 2 = 0 ∧ (shearXY : Matrix (Fin 3) (Fin 3) ℝ) 0 1 = 1 ∧
    (shearXY : Matrix (Fin 3) (Fin 3) ℝ) 1 2 = 0 ∧ (shearXY : Matrix (Fin 3) (Fin 3) ℝ) 0 2 = 0 :=
  ⟨rfl, rfl, rfl, rfl, rfl, rfl⟩

/-! ## Lemmas on the eigen solver -/

theorem conj_diagonal_mul {n : Nat} (V : Matrix (Fin n) (Fin n) ℝ) (hV : Vᵀ * V = 1)
    (a b : Fin n → ℝ) :
    (V * Matrix.diagonal a * Vᵀ) * (V * Matrix.diagonal b * Vᵀ)
      = V * Matrix.diagonal (fun i => a i * b i) * Vᵀ := by
  calc (V * Matrix.diagonal a * Vᵀ) * (V * Matrix.diagonal b * Vᵀ)
      = V * Matrix.diagonal a * (Vᵀ * V) * Matrix.diagonal b * Vᵀ := by
        simp only [Matrix.mul_assoc]
    _ = V * (Matrix.diagonal a * Matrix.diagonal b) * Vᵀ := by
        rw [hV, Matrix.mul_one, Matrix.mul_assoc V]
    _ = V * Matrix.diagonal (fun i => a i * b i) * Vᵀ := by
        rw [Matrix.diagonal_mul_diagonal]

theorem conj_diagonal_one {n : Nat} (V : Matrix (Fin n) (Fin n) ℝ) (hV : Vᵀ * V = 1) :
    V * Matrix.diagonal (fun _ => (1 : ℝ)) * Vᵀ = 1 := by
  rw [Matrix.diagonal_one, Matrix.mul_one]
  exact Matrix.mul_eq_one_comm.mp hV

theorem eivalues_pos {n : Nat} (es : SelfAdjointEigenSolver n ℝ)
    (F : Matrix (Fin n) (Fin n) ℝ) (hF : F.det ≠ 0) (h : es.Decomposes (Fᵀ * F))
    (i : Fin n) : 0 < es.eivalues i := by
  obtain ⟨hV, hA⟩ := h
  have hD : Matrix.diagonal es.eivalues = (F * es.eivec)ᵀ * (F * es.eivec) := by
    calc Matrix.diagonal es.eivalues
        = (es.eivecᵀ * es.eivec) * Matrix.diagonal es.eivalues * (es.eivecᵀ * es.eivec) := by
          rw [hV, Matrix.one_mul, Matrix.mul_one]
      _ = es.eivecᵀ * (es.eivec * Matrix.diagonal es.eivalues * es.eivecᵀ) * es.eivec := by
          simp only [Matrix.mul_assoc]
      _ = (F * es.eivec)ᵀ * (F * es.eivec) := by
          rw [hA, Matrix.transpose_mul]; simp only [Matrix.mul_assoc]
  have hnonneg : 0 ≤ es.eivalues i := by
    have h1 : es.eivalues i = ((F * es.eivec)ᵀ * (F * es.eivec)) i i := by
      rw [← hD, Matrix.diagonal_apply_eq]
    rw [h1, Matrix.mul_apply]
    exact Finset.sum_nonneg (fun k _ => by rw [Matrix.transpose_apply]; exact mul_self_nonneg _)
  have hVdet : es.eivec.det ≠ 0 := by
    intro h0
    have := congrArg Matrix.det hV
    rw [Matrix.det_mul, h0, mul_zero, Matrix.det_one] at this
    exact zero_ne_one this
  have hprod : ∏ j, es.eivalues j ≠ 0 := by
    rw [← Matrix.det_diagonal, hD, Matrix.det_mul, Matrix.det_transpose, Matrix.det_mul]
    exact mul_ne_zero (mul_ne_zero hF hVdet) (mul_ne_zero hF hVdet)
  have hne : es.eivalues i ≠ 0 := (Finset.prod_ne_zero_iff.mp hprod) i (Finset.mem_univ i)
  exact lt_of_le_of_ne hnonneg (Ne.symm hne)

theorem sqrt_mul_sqrt_inv {d : ℝ} (hd : 0 < d) : Real.sqrt d * Real.sqrt d⁻¹ = 1 := by
  rw [Real.sqrt_inv, mul_inv_cancel₀ (ne_of_gt (Real.sqrt_pos.mpr hd))]


theorem conj_diagonal_transpose {n : Nat} (V : Matrix (Fin n) (Fin n) ℝ) (a : Fin n → ℝ) :
    (V * Matrix.diagonal a * Vᵀ)ᵀ = V * Matrix.diagonal a * Vᵀ := by
  rw [Matrix.transpose_mul, Matrix.transpose_mul, Matrix.transpose_transpose,
    Matrix.diagonal_transpose, Matrix.mul_assoc]

theorem conj_diagonal_det {n : Nat} (V : Matrix (Fin n) (Fin n) ℝ) (hV : Vᵀ * V = 1)
    (a : Fin n → ℝ) : (V * Matrix.diagonal a * Vᵀ).det = ∏ i, a i := by
  have h1 : V.det * V.det = 1 := by
    have := congrArg Matrix.det hV
    rwa [Matrix.det_mul, Matrix.det_transpose, Matrix.det_one] at this
  rw [Matrix.det_mul, Matrix.det_mul, Matrix.det_transpose, Matrix.det_diagonal]
  calc V.det * (∏ i, a i) * V.det = (V.det * V.det) * ∏ i, a i := by ring
    _ = ∏ i, a i := by rw [h1, one_mul]

theorem conj_diagonal_quadratic_pos {n : Nat} (V : Matrix (Fin n) (Fin n) ℝ)
    (hV : Vᵀ * V = 1) (s : Fin n → ℝ) (hs : ∀ i, 0 < s i) (x : Fin n → ℝ) (hx : x ≠ 0) :
    0 < x ⬝ᵥ ((V * Matrix.diagonal s * Vᵀ) *ᵥ x) := by
  have hy : Vᵀ *ᵥ x ≠ 0 := by
    intro h0
    apply hx
    have h1 : (V * Vᵀ) *ᵥ x = x := by rw [Matrix.mul_eq_one_comm.mp hV, Matrix.one_mulVec]
    rw [← h1, ← Matrix.mulVec_mulVec, h0, Matrix.mulVec_zero]
  have key : x ⬝ᵥ ((V * Matrix.diagonal s * Vᵀ) *ᵥ x)
      = ∑ i, s i * ((Vᵀ *ᵥ x) i * (Vᵀ *ᵥ x) i) := by
    rw [← Matrix.mulVec_mulVec, ← Matrix.mulVec_mulVec, Matrix.dotProduct_mulVec,
      ← Matrix.mulVec_transpose]
    simp only [Matrix.dotProduct, Matrix.mulVec_diagonal]
    exact Finset.sum_congr rfl (fun i _ => by ring)
  rw [key]
  obtain ⟨i, hi⟩ : ∃ i, (Vᵀ *ᵥ x) i ≠ 0 := by
    by_contra hcon
    push_neg at hcon
    exact hy (funext hcon)
  exact Finset.sum_pos' (fun j _ => mul_nonneg (hs j).le (mul_self_nonneg _))
    ⟨i, Finset.mem_univ i, mul_pos (hs i) (mul_self_pos.mpr hi)⟩

/-- Facts on the two operators of a solver with orthonormal eigenvectors and positive
eigenvalues. -/
theorem operatorSqrt_mul_self {n : Nat} (es : SelfAdjointEigenSolver n ℝ)
    (A : Matrix (Fin n) (Fin n) ℝ) (h : es.Decomposes A) (hpos : ∀ i, 0 < es.eivalues i) :
    es.operatorSqrt Real.sqrt * es.operatorSqrt Real.sqrt = A := by
  unfold SelfAdjointEigenSolver.operatorSqrt
  rw [conj_diagonal_mul _ h.1, ← h.2]
  congr 2
  exact congrArg Matrix.diagonal (funext fun i => Real.mul_self_sqrt (hpos i).le)

theorem operatorSqrt_mul_inverseSqrt {n : Nat} (es : SelfAdjointEigenSolver n ℝ)
    (hV : es.eivecᵀ * es.eivec = 1) (hpos : ∀ i, 0 < es.eivalues i) :
    es.operatorSqrt Real.sqrt * es.operatorInverseSqrt Real.sqrt = 1 := by
  unfold SelfAdjointEigenSolver.operatorSqrt SelfAdjointEigenSolver.operatorInverseSqrt
  rw [conj_diagonal_mul _ hV]
  have : (fun i => Real.sqrt (es.eivalues i) * Real.sqrt (es.eivalues i)⁻¹) = fun _ => (1 : ℝ) :=
    funext fun i => sqrt_mul_sqrt_inv (hpos i)
  rw [this]
  exact conj_diagonal_one _ hV

theorem operatorInverseSqrt_mul_sqrt {n : Nat} (es : SelfAdjointEigenSolver n ℝ)
    (hV : es.eivecᵀ * es.eivec = 1) (hpos : ∀ i, 0 < es.eivalues i) :
    es.operatorInverseSqrt Real.sqrt * es.operatorSqrt Real.sqrt = 1 :=
  Matrix.mul_eq_one_comm.mp (operatorSqrt_mul_inverseSqrt es hV hpos)

theorem operatorInverseSqrt_det_pos {n : Nat} (es : SelfAdjointEigenSolver n ℝ)
    (hV : es.eivecᵀ * es.eivec = 1) (hpos : ∀ i, 0 < es.eivalues i) :
    0 < (es.operatorInverseSqrt Real.sqrt).det := by
  unfold SelfAdjointEigenSolver.operatorInverseSqrt
  rw [conj_diagonal_det _ hV]
  exact Finset.prod_pos (fun i _ => Real.sqrt_pos.mpr (inv_pos.mpr (hpos i)))


theorem dilate2_det_ne_zero : (dilate2 : Matrix (Fin 3) (Fin 3) ℝ).det ≠ 0 := by
  simp [dilate2, Matrix.det_diagonal]

theorem dilate2_decomposes :
    (scalarEigen 3 (4 : ℝ)).Decomposes ((dilate2 : Matrix (Fin 3) (Fin 3) ℝ)ᵀ * dilate2) := by
  constructor
  · simp [scalarEigen]
  · simp only [scalarEigen, dilate2, Matrix.diagonal_transpose, Matrix.diagonal_mul_diagonal,
      Matrix.one_mul, Matrix.transpose_one, Matrix.mul_one]
    norm_num

theorem reflectZ_det : (reflectZ : Matrix (Fin 3) (Fin 3) ℝ).det = -1 := by
  simp [reflectZ, Matrix.det_diagonal, Fin.prod_univ_three]

theorem reflectZ_decomposes :
    (scalarEigen 3 (1 : ℝ)).Decomposes ((reflectZ : Matrix (Fin 3) (Fin 3) ℝ)ᵀ * reflectZ) := by
  constructor
  · simp [scalarEigen]
  · simp only [scalarEigen, reflectZ, Matrix.diagonal_transpose, Matrix.diagonal_mul_diagonal,
      Matrix.one_mul, Matrix.transpose_one, Matrix.mul_one]
    refine congrArg Matrix.diagonal (funext fun i => ?_)
    fin_cases i <;> simp

/-! ## Lemmas on the right polar decomposition -/

theorem polarRU_R_mul_U {Dim : Nat}
    (solver : Matrix (Fin Dim) (Fin Dim) ℝ → SelfAdjointEigenSolver Dim ℝ)
    (F : Matrix (Fin Dim) (Fin Dim) ℝ) (hF : F.det ≠ 0)
    (hsolver : (solver (Fᵀ * F)).Decomposes (Fᵀ * F)) :
    (PolarDecompositionRU.construct Real.sqrt solver F).R
        * (PolarDecompositionRU.construct Real.sqrt solver F).U = F := by
  have hpos := eivalues_pos _ F hF hsolver
  show F * (solver (Fᵀ * F)).operatorInverseSqrt Real.sqrt
      * (solver (Fᵀ * F)).operatorSqrt Real.sqrt = F
  rw [Matrix.mul_assoc, operatorInverseSqrt_mul_sqrt _ hsolver.1 hpos, Matrix.mul_one]

theorem polarRU_Rt_mul_R {Dim : Nat}
    (solver : Matrix (Fin Dim) (Fin Dim) ℝ → SelfAdjointEigenSolver Dim ℝ)
    (F : Matrix (Fin Dim) (Fin Dim) ℝ) (hF : F.det ≠ 0)
    (hsolver : (solver (Fᵀ * F)).Decomposes (Fᵀ * F)) :
    (PolarDecompositionRU.construct Real.sqrt solver F).Rᵀ
        * (PolarDecompositionRU.construct Real.sqrt solver F).R = 1 := by
  have hpos := eivalues_pos _ F hF hsolver
  have hUU := operatorSqrt_mul_self _ _ hsolver hpos
  have hUi := operatorSqrt_mul_inverseSqrt _ hsolver.1 hpos
  have hiU := operatorInverseSqrt_mul_sqrt _ hsolver.1 hpos
  have hsymm : ((solver (Fᵀ * F)).operatorInverseSqrt Real.sqrt)ᵀ
      = (solver (Fᵀ * F)).operatorInverseSqrt Real.sqrt := conj_diagonal_transpose _ _
  show (F * (solver (Fᵀ * F)).operatorInverseSqrt Real.sqrt)ᵀ
      * (F * (solver (Fᵀ * F)).operatorInverseSqrt Real.sqrt) = 1
  generalize (solver (Fᵀ * F)).operatorInverseSqrt Real.sqrt = W at *
  generalize (solver (Fᵀ * F)).operatorSqrt Real.sqrt = U at *
  calc (F * W)ᵀ * (F * W) = W * (Fᵀ * F) * W := by
        rw [Matrix.transpose_mul, hsymm]; simp only [Matrix.mul_assoc]
    _ = (W * U) * (U * W) := by rw [← hUU]; simp only [Matrix.mul_assoc]
    _ = 1 := by rw [hiU, hUi, Matrix.one_mul]

theorem polarRU_R_det {Dim : Nat}
    (solver : Matrix (Fin Dim) (Fin Dim) ℝ → SelfAdjointEigenSolver Dim ℝ)
    (F : Matrix (Fin Dim) (Fin Dim) ℝ) (hF : F.det ≠ 0)
    (hsolver : (solver (Fᵀ * F)).Decomposes (Fᵀ * F)) :
    (0 < F.det → (PolarDecompositionRU.construct Real.sqrt solver F).R.det = 1) ∧
    (F.det < 0 → (PolarDecompositionRU.construct Real.sqrt solver F).R.det = -1) := by
  have hpos := eivalues_pos _ F hF hsolver
  have hW := operatorInverseSqrt_det_pos _ hsolver.1 hpos
  have horth := polarRU_Rt_mul_R solver F hF hsolver
  have hsq : (PolarDecompositionRU.construct Real.sqrt solver F).R.det
      * (PolarDecompositionRU.construct Real.sqrt solver F).R.det = 1 := by
    have := congrArg Matrix.det horth
    rwa [Matrix.det_mul, Matrix.det_transpose, Matrix.det_one] at this
  have hdet : (PolarDecompositionRU.construct Real.sqrt solver F).R.det
      = F.det * ((solver (Fᵀ * F)).operatorInverseSqrt Real.sqrt).det := Matrix.det_mul _ _
  rcases mul_self_eq_one_iff.mp hsq with h1 | h1
  · refine ⟨fun _ => h1, fun hneg => ?_⟩
    have : F.det * ((solver (Fᵀ * F)).operatorInverseSqrt Real.sqrt).det < 0 :=
      mul_neg_of_neg_of_pos hneg hW
    rw [← hdet, h1] at this
    linarith
  · refine ⟨fun hp => ?_, fun _ => h1⟩
    have : 0 < F.det * ((solver (Fᵀ * F)).operatorInverseSqrt Real.sqrt).det := mul_pos hp hW
    rw [← hdet, h1] at this
    linarith

theorem polarRU_U_posDef {Dim : Nat}
    (solver : Matrix (Fin Dim) (Fin Dim) ℝ → SelfAdjointEigenSolver Dim ℝ)
    (F : Matrix (Fin Dim) (Fin Dim) ℝ) (hF : F.det ≠ 0)
    (hsolver : (solver (Fᵀ * F)).Decomposes (Fᵀ * F)) :
    (PolarDecompositionRU.construct Real.sqrt solver F).U.IsSymm ∧
    (PolarDecompositionRU.construct Real.sqrt solver F).U.PosDef := by
  have hpos := eivalues_pos _ F hF hsolver
  have hsymm : ((solver (Fᵀ * F)).operatorSqrt Real.sqrt)ᵀ
      = (solver (Fᵀ * F)).operatorSqrt Real.sqrt := conj_diagonal_transpose _ _
  refine ⟨hsymm, ?_, fun x hx => ?_⟩
  · show ((solver (Fᵀ * F)).operatorSqrt Real.sqrt)ᴴ = _
    rw [Matrix.conjTranspose_eq_transpose_of_trivial, hsymm]
    rfl
  · rw [star_trivial]
    exact conj_diagonal_quadratic_pos _ hsolver.1 _ (fun i => Real.sqrt_pos.mpr (hpos i)) x hx

/-! ## Lemmas on the left polar decomposition -/

theorem eivalues_pos_left {n : Nat} (es : SelfAdjointEigenSolver n ℝ)
    (F : Matrix (Fin n) (Fin n) ℝ) (hF : F.det ≠ 0) (h : es.Decomposes (F * Fᵀ))
    (i : Fin n) : 0 < es.eivalues i := by
  have hFt : Fᵀ.det ≠ 0 := by rwa [Matrix.det_transpose]
  have h2 : es.Decomposes (Fᵀᵀ * Fᵀ) := by rwa [Matrix.transpose_transpose]
  exact eivalues_pos es Fᵀ hFt h2 i

theorem operatorSqrt_posDef {n : Nat} (es : SelfAdjointEigenSolver n ℝ)
    (hV : es.eivecᵀ * es.eivec = 1) (hpos : ∀ i, 0 < es.eivalues i) :
    (es.operatorSqrt Real.sqrt).PosDef := by
  have hsymm : (es.operatorSqrt Real.sqrt)ᵀ = es.operatorSqrt Real.sqrt :=
    conj_diagonal_transpose _ _
  refine ⟨?_, fun x hx => ?_⟩
  · show (es.operatorSqrt Real.sqrt)ᴴ = _
    rw [Matrix.conjTranspose_eq_transpose_of_trivial, hsymm]
  · rw [star_trivial]
    exact conj_diagonal_quadratic_pos _ hV _ (fun i => Real.sqrt_pos.mpr (hpos i)) x hx

theorem polarVR_V_mul_R {Dim : Nat}
    (solver : Matrix (Fin Dim) (Fin Dim) ℝ → SelfAdjointEigenSolver Dim ℝ)
    (F : Matrix (Fin Dim) (Fin Dim) ℝ) (hF : F.det ≠ 0)
    (hsolver : (solver (F * Fᵀ)).Decomposes (F * Fᵀ)) :
    (PolarDecompositionVR.construct Real.sqrt solver F).V
        * (PolarDecompositionVR.construct Real.sqrt solver F).R = F := by
  have hpos := eivalues_pos_left _ F hF hsolver
  show (solver (F * Fᵀ)).operatorSqrt Real.sqrt
      * ((solver (F * Fᵀ)).operatorInverseSqrt Real.sqrt * F) = F
  rw [← Matrix.mul_assoc, operatorSqrt_mul_inverseSqrt _ hsolver.1 hpos, Matrix.one_mul]

theorem polarVR_Rt_mul_R {Dim : Nat}
    (solver : Matrix (Fin Dim) (Fin Dim) ℝ → SelfAdjointEigenSolver Dim ℝ)
    (F : Matrix (Fin Dim) (Fin Dim) ℝ) (hF : F.det ≠ 0)
    (hsolver : (solver (F * Fᵀ)).Decomposes (F * Fᵀ)) :
    (PolarDecompositionVR.construct Real.sqrt solver F).Rᵀ
        * (PolarDecompositionVR.construct Real.sqrt solver F).R = 1 := by
  have hpos := eivalues_pos_left _ F hF hsolver
  have hVV := operatorSqrt_mul_self _ _ hsolver hpos
  have hVi := operatorSqrt_mul_inverseSqrt _ hsolver.1 hpos
  have hiV := operatorInverseSqrt_mul_sqrt _ hsolver.1 hpos
  have hsymm : ((solver (F * Fᵀ)).operatorInverseSqrt Real.sqrt)ᵀ
      = (solver (F * Fᵀ)).operatorInverseSqrt Real.sqrt := conj_diagonal_transpose _ _
  show ((solver (F * Fᵀ)).operatorInverseSqrt Real.sqrt * F)ᵀ
      * ((solver (F * Fᵀ)).operatorInverseSqrt Real.sqrt * F) = 1
  generalize (solver (F * Fᵀ)).operatorInverseSqrt Real.sqrt = W at *
  generalize (solver (F * Fᵀ)).operatorSqrt Real.sqrt = V at *
  apply Matrix.mul_eq_one_comm.mp
  calc (W * F) * (W * F)ᵀ = W * (F * Fᵀ) * W := by
        rw [Matrix.transpose_mul, hsymm]; simp only [Matrix.mul_assoc]
    _ = (W * V) * (V * W) := by rw [← hVV]; simp only [Matrix.mul_assoc]
    _ = 1 := by rw [hiV, hVi, Matrix.one_mul]


theorem polar_dual_core {Dim : Nat}
    (solverU solverV : Matrix (Fin Dim) (Fin Dim) ℝ → SelfAdjointEigenSolver Dim ℝ)
    (F : Matrix (Fin Dim) (Fin Dim) ℝ) (hF : F.det ≠ 0)
    (hU : (solverU (Fᵀ * F)).Decomposes (Fᵀ * F))
    (hV : (solverV (F * Fᵀ)).Decomposes (F * Fᵀ)) :
    (PolarDecompositionVR.construct Real.sqrt solverV F).V
      = (PolarDecompositionRU.construct Real.sqrt solverU F).R
        * (PolarDecompositionRU.construct Real.sqrt solverU F).U
        * (PolarDecompositionRU.construct Real.sqrt solverU F).Rᵀ := by
  have hposU := eivalues_pos _ F hF hU
  have hposV := eivalues_pos_left _ F hF hV
  have hRU := polarRU_R_mul_U solverU F hF hU
  have hRtR := polarRU_Rt_mul_R solverU F hF hU
  have hUpd : (PolarDecompositionRU.construct Real.sqrt solverU F).U.PosDef :=
    operatorSqrt_posDef _ hU.1 hposU
  have hVpd : (PolarDecompositionVR.construct Real.sqrt solverV F).V.PosDef :=
    operatorSqrt_posDef _ hV.1 hposV
  have hVV : (PolarDecompositionVR.construct Real.sqrt solverV F).V
      * (PolarDecompositionVR.construct Real.sqrt solverV F).V = F * Fᵀ :=
    operatorSqrt_mul_self _ _ hV hposV
  have hUsymm : (PolarDecompositionRU.construct Real.sqrt solverU F).Uᵀ
      = (PolarDecompositionRU.construct Real.sqrt solverU F).U := conj_diagonal_transpose _ _
  generalize (PolarDecompositionRU.construct Real.sqrt solverU F).R = R at *
  generalize (PolarDecompositionRU.construct Real.sqrt solverU F).U = U at *
  generalize (PolarDecompositionVR.construct Real.sqrt solverV F).V = V at *
  have hP : (R * U * Rᵀ).PosSemidef := by
    have := hUpd.posSemidef.mul_mul_conjTranspose_same R
    rwa [Matrix.conjTranspose_eq_transpose_of_trivial] at this
  have hFt : Fᵀ = U * Rᵀ := by rw [← hRU, Matrix.transpose_mul, hUsymm]
  have hPP : (R * U * Rᵀ) * (R * U * Rᵀ) = F * Fᵀ := by
    calc (R * U * Rᵀ) * (R * U * Rᵀ) = R * U * (Rᵀ * R) * (U * Rᵀ) := by
          simp only [Matrix.mul_assoc]
      _ = F * Fᵀ := by rw [hRtR, Matrix.mul_one, hRU, ← hFt]
  exact hVpd.posSemidef.eq_of_sq_eq_sq hP (by rw [pow_two, pow_two, hVV, hPP])

theorem polar_dual_R_eq {Dim : Nat}
    (solverU solverV : Matrix (Fin Dim) (Fin Dim) ℝ → SelfAdjointEigenSolver Dim ℝ)
    (F : Matrix (Fin Dim) (Fin Dim) ℝ) (hF : F.det ≠ 0)
    (hU : (solverU (Fᵀ * F)).Decomposes (Fᵀ * F))
    (hV : (solverV (F * Fᵀ)).Decomposes (F * Fᵀ)) :
    (PolarDecompositionRU.construct Real.sqrt solverU F).R
      = (PolarDecompositionVR.construct Real.sqrt solverV F).R := by
  have hposV := eivalues_pos_left _ F hF hV
  have hcore := polar_dual_core solverU solverV F hF hU hV
  have hRU := polarRU_R_mul_U solverU F hF hU
  have hRtR := polarRU_Rt_mul_R solverU F hF hU
  have hiV : (PolarDecompositionVR.construct Real.sqrt solverV F).Vinv
      * (PolarDecompositionVR.construct Real.sqrt solverV F).V = 1 :=
    operatorInverseSqrt_mul_sqrt _ hV.1 hposV
  have hR2 : (PolarDecompositionVR.construct Real.sqrt solverV F).R
      = (PolarDecompositionVR.construct Real.sqrt solverV F).Vinv * F := rfl
  generalize (PolarDecompositionRU.construct Real.sqrt solverU F).R = R at *
  generalize (PolarDecompositionRU.construct Real.sqrt solverU F).U = U at *
  generalize (PolarDecompositionVR.construct Real.sqrt solverV F).V = V at *
  generalize (PolarDecompositionVR.construct Real.sqrt solverV F).Vinv = W at *
  generalize (PolarDecompositionVR.construct Real.sqrt solverV F).R = R2 at *
  have hVR : V * R = F := by
    rw [hcore, Matrix.mul_assoc, hRtR, Matrix.mul_one, hRU]
  calc R = (W * V) * R := by rw [hiV, Matrix.one_mul]
    _ = W * F := by rw [Matrix.mul_assoc, hVR]
    _ = R2 := hR2.symm

theorem polar_dual_U_eq {Dim : Nat}
    (solverU solverV : Matrix (Fin Dim) (Fin Dim) ℝ → SelfAdjointEigenSolver Dim ℝ)
    (F : Matrix (Fin Dim) (Fin Dim) ℝ) (hF : F.det ≠ 0)
    (hU : (solverU (Fᵀ * F)).Decomposes (Fᵀ * F))
    (hV : (solverV (F * Fᵀ)).Decomposes (F * Fᵀ)) :
    (PolarDecompositionRU.construct Real.sqrt solverU F).U
      = (PolarDecompositionRU.construct Real.sqrt solverU F).Rᵀ
        * (PolarDecompositionVR.construct Real.sqrt solverV F).V
        * (PolarDecompositionRU.construct Real.sqrt solverU F).R := by
  have hcore := polar_dual_core solverU solverV F hF hU hV
  have hRtR := polarRU_Rt_mul_R solverU F hF hU
  generalize (PolarDecompositionRU.construct Real.sqrt solverU F).R = R at *
  generalize (PolarDecompositionRU.construct Real.sqrt solverU F).U = U at *
  generalize (PolarDecompositionVR.construct Real.sqrt solverV F).V = V at *
  calc U = (Rᵀ * R) * U * (Rᵀ * R) := by rw [hRtR, Matrix.one_mul, Matrix.mul_one]
    _ = Rᵀ * (R * U * Rᵀ) * R := by simp only [Matrix.mul_assoc]
    _ = Rᵀ * V * R := by rw [← hcore]

theorem dilate2_decomposes_left :
    (scalarEigen 3 (4 : ℝ)).Decomposes ((dilate2 : Matrix (Fin 3) (Fin 3) ℝ) * dilate2ᵀ) := by
  constructor
  · simp [scalarEigen]
  · simp only [scalarEigen, dilate2, Matrix.diagonal_transpose, Matrix.diagonal_mul_diagonal,
      Matrix.one_mul, Matrix.transpose_one, Matrix.mul_one]
    norm_num

/-! ## Lemmas on the expander and on the Voigt functions -/

theorem expand_MatrixType_eq_none (p q r s : Nat) : expand_functor.MatrixType p q r s = none := by
  simp [expand_functor.MatrixType, compileTimeMember]

theorem expand_matrix_eq_none {α : Type} [Field α] {p q r s : Nat} (A : Matrix (Fin p) (Fin q) α)
    (B : Matrix (Fin r) (Fin s) α) : expand_matrix A B = none := by
  simp [expand_matrix, expand_MatrixType_eq_none]

theorem expand_functor_call_eq {α : Type} [Field α] {p q r s : Nat}
    (A : Matrix (Fin p) (Fin q) α) (B : Matrix (Fin r) (Fin s) α) (i j : Nat)
    (hi : i < p * r) (hj : j < q * s) :
    ∃ (h1 : i / r < p) (h2 : j / s < q) (h3 : i % r < r) (h4 : j % s < s),
      expand_functor.call { arg := A, exp := B } i j
        = some (A ⟨i / r, h1⟩ ⟨j / s, h2⟩ * B ⟨i % r, h3⟩ ⟨j % s, h4⟩) := by
  have hr : 0 < r := Nat.pos_of_ne_zero (by rintro rfl; simp at hi)
  have hs : 0 < s := Nat.pos_of_ne_zero (by rintro rfl; simp at hj)
  have h1 : i / r < p := Nat.div_lt_of_lt_mul (by rwa [Nat.mul_comm] at hi)
  have h2 : j / s < q := Nat.div_lt_of_lt_mul (by rwa [Nat.mul_comm] at hj)
  have h3 : i % r < r := Nat.mod_lt _ hr
  have h4 : j % s < s := Nat.mod_lt _ hs
  refine ⟨h1, h2, h3, h4, ?_⟩
  simp [expand_functor.call, coeff, h1, h2, h3, h4]

theorem vtrace_none_iff {α : Type} [Field α] {L : Nat} (v : Fin L → α) :
    vtrace v = none ↔ L ≤ 3 := by
  unfold vtrace
  split <;> simp <;> omega

theorem videntity_none_iff (α : Type) [Field α] (L : Nat) :
    (videntity L : Option (Fin L → α)) = none ↔ L ≤ 3 := by
  unfold videntity
  split <;> simp <;> omega

theorem vmult_off_diag_none_iff {α : Type} [Field α] {L : Nat} (v : Fin L → α) (scale : α) :
    vmult_off_diag v scale = none ↔ L ≤ 3 := by
  unfold vmult_off_diag
  split <;> simp <;> omega

theorem vnorm_none_iff {α : Type} [Field α] (sqrt : α → α) {L : Nat} (v : Fin L → α) :
    vnorm sqrt v = none ↔ L ≤ 3 := by
  unfold vnorm vmult_off_diag
  split <;> simp <;> omega

theorem vprod_none_iff {α : Type} [Field α] {r c L : Nat} (M : Matrix (Fin r) (Fin c) α)
    (v : Fin L → α) : vprod M v = none ↔ L ≤ 3 ∨ c ≠ L ∨ r ≠ L := by
  unfold vprod vmult_off_diag fixedCast
  by_cases hc : c = L
  · by_cases hL : 3 < L
    · by_cases hr : L = r
      · simp [hc, hL, hr]
      · simp [hc, hL, hr]
        omega
    · simp [hc, hL]
      omega
  · simp [hc]


theorem vmult_off_diag_eq {α : Type} [Field α] {L : Nat} (hL : 3 < L) (v : Fin L → α)
    (scale : α) :
    vmult_off_diag v scale = some (fun i => if 3 ≤ i.val then v i * scale else v i) := by
  simp [vmult_off_diag, hL]

theorem vprod_square {α : Type} [Field α] (L : Nat) (hL : 3 < L)
    (M : Matrix (Fin L) (Fin L) α) (v : Fin L → α) :
    vprod M v = some (M *ᵥ fun j => if 3 ≤ j.val then v j * 2 else v j) := by
  simp [vprod, vmult_off_diag, hL, fixedCast, vmult_off_diag_default_scale]

/-! ## Claims on the strain and stress conversions -/

/-- C1: for every symmetric 3x3 tensor `T`, in exact arithmetic,
`VoigtToStrain (StrainToVoigt T) = T` and `VoigtToStress (StressToVoigt T) = T`. -/
theorem voigt_roundtrip_3d {K : Type} [Field K] [CharZero K]
    (T : Matrix (Fin 3) (Fin 3) K) (hT : T.IsSymm) :
    VoigtToStrain (StrainToVoigt T) = T ∧ VoigtToStress (StressToVoigt T) = T := by
  have h01 := hT.apply 0 1
  have h02 := hT.apply 0 2
  have h12 := hT.apply 1 2
  constructor
  · ext i j
    fin_cases i <;> fin_cases j <;>
      simp [VoigtToStrain, StrainToVoigt, h01, h02, h12, vec6_at_three, vec6_at_four,
        vec6_at_five]
  · ext i j
    fin_cases i <;> fin_cases j <;>
      simp [VoigtToStress, StressToVoigt, h01, h02, h12, vec6_at_three, vec6_at_four,
        vec6_at_five]

/-- Witness of C1 at the rational tensor `sampleSymm3`. -/
theorem voigt_roundtrip_3d_witness :
    (sampleSymm3 : Matrix (Fin 3) (Fin 3) ℚ).IsSymm ∧
    VoigtToStrain (StrainToVoigt (sampleSymm3 : Matrix (Fin 3) (Fin 3) ℚ)) = sampleSymm3 ∧
    VoigtToStress (StressToVoigt (sampleSymm3 : Matrix (Fin 3) (Fin 3) ℚ)) = sampleSymm3 :=
  ⟨sampleSymm3_isSymm, voigt_roundtrip_3d sampleSymm3 sampleSymm3_isSymm⟩

/-- C2 (defect of the code): on the symmetric 2x2 tensor `sampleSymm2` the 2D
`StressToVoigt` yields no vector at all, where the claim expects `(1, 3, 2)`: the body reads
`strain(2,2)` on a 2x2 matrix and builds 6 rows for a result of 3 rows.  The expected
vector `(T00, T11, T01)` would round-trip through the 2D `VoigtToStress`. -/
theorem stress2D_to_voigt_fails :
    StressToVoigt2D (sampleSymm2 : Matrix (Fin 2) (Fin 2) ℚ) = none ∧
    coeff (sampleSymm2 : Matrix (Fin 2) (Fin 2) ℚ) 2 2 = none ∧
    (∀ V : Fin 6 → ℚ, fixedCast 3 V = none) ∧
    VoigtToStress2D (![1, 3, 2] : Fin 3 → ℚ) = sampleSymm2 := by
  refine ⟨StressToVoigt2D_eq_none _, by simp [coeff], fun V => by simp [fixedCast], ?_⟩
  ext i j
  fin_cases i <;> fin_cases j <;> rfl

/-- C3: for every symmetric 2x2 tensor `T`, `StrainToVoigt T = (T00, T11, 2*T01)` and
`VoigtToStrain (StrainToVoigt T) = T`. -/
theorem strain2D_roundtrip {K : Type} [Field K] [CharZero K]
    (T : Matrix (Fin 2) (Fin 2) K) (hT : T.IsSymm) :
    StrainToVoigt2D T = ![T 0 0, T 1 1, 2 * T 0 1] ∧
    VoigtToStrain2D (StrainToVoigt2D T) = T := by
  have h01 := hT.apply 0 1
  refine ⟨rfl, ?_⟩
  ext i j
  fin_cases i <;> fin_cases j <;> simp [VoigtToStrain2D, StrainToVoigt2D, h01]

/-- Witness of C3 at the rational tensor `sampleSymm2`. -/
theorem strain2D_roundtrip_witness :
    (sampleSymm2 : Matrix (Fin 2) (Fin 2) ℚ).IsSymm ∧
    VoigtToStrain2D (StrainToVoigt2D (sampleSymm2 : Matrix (Fin 2) (Fin 2) ℚ)) = sampleSymm2 :=
  ⟨sampleSymm2_isSymm, (strain2D_roundtrip sampleSymm2 sampleSymm2_isSymm).2⟩

/-- C4: for every 3x3 tensor `T` the 3D conversions use the order (xx, yy, zz, xy, yz, xz):
`StrainToVoigt T = (T00, T11, T22, 2*T01, 2*T12, 2*T02)` and
`StressToVoigt T = (T00, T11, T22, T01, T12, T02)`. -/
theorem voigt_order_3d {K : Type} [Field K] (T : Matrix (Fin 3) (Fin 3) K) :
    StrainToVoigt T = ![T 0 0, T 1 1, T 2 2, 2 * T 0 1, 2 * T 1 2, 2 * T 0 2] ∧
    StressToVoigt T = ![T 0 0, T 1 1, T 2 2, T 0 1, T 1 2, T 0 2] :=
  ⟨rfl, rfl⟩

/-! ## Claims on the Voigt norm -/

/-- C5 (counterexample): for the symmetric pure shear `shearXY`, whose squared Frobenius
norm is 2, `vnorm` of the strain Voigt vector has square 8. -/
theorem vnorm_strain_counterexample :
    (shearXY : Matrix (Fin 3) (Fin 3) ℝ).IsSymm ∧
    ∃ x, vnorm Real.sqrt (StrainToVoigt (shearXY : Matrix (Fin 3) (Fin 3) ℝ)) = some x ∧
      x ^ 2 = 8 ∧ ∑ i, ∑ j, (shearXY : Matrix (Fin 3) (Fin 3) ℝ) i j ^ 2 = 2 ∧
      x ^ 2 ≠ ∑ i, ∑ j, (shearXY : Matrix (Fin 3) (Fin 3) ℝ) i j ^ 2 := by
  obtain ⟨e00, e11, e22, e01, e12, e02⟩ := shearXY_entries
  have hsum : ∑ i, ∑ j, (shearXY : Matrix (Fin 3) (Fin 3) ℝ) i j ^ 2 = 2 := by
    rw [frobenius_sq_symm _ shearXY_isSymm, e00, e11, e22, e01, e12, e02]
    norm_num
  have hx : Real.sqrt ((shearXY : Matrix (Fin 3) (Fin 3) ℝ) 0 0 ^ 2 + shearXY 1 1 ^ 2
      + shearXY 2 2 ^ 2 + 8 * (shearXY 0 1 ^ 2 + shearXY 1 2 ^ 2 + shearXY 0 2 ^ 2)) ^ 2 = 8 := by
    rw [Real.sq_sqrt (by positivity), e00, e11, e22, e01, e12, e02]
    norm_num
  refine ⟨shearXY_isSymm, _, vnorm_strain_value _, hx, hsum, ?_⟩
  rw [hx, hsum]
  norm_num

/-- C5 (amended): for a symmetric 3x3 tensor `T`, `vnorm (StrainToVoigt T)` is defined and
its square is `T00² + T11² + T22² + 8 (T01² + T12² + T02²)`; it is the squared Frobenius
norm of `T` exactly when the off-diagonal entries of `T` vanish. -/
theorem vnorm_strain_sq (T : Matrix (Fin 3) (Fin 3) ℝ) (hT : T.IsSymm) :
    ∃ x, vnorm Real.sqrt (StrainToVoigt T) = some x ∧
      x ^ 2 = T 0 0 ^ 2 + T 1 1 ^ 2 + T 2 2 ^ 2 + 8 * (T 0 1 ^ 2 + T 1 2 ^ 2 + T 0 2 ^ 2) ∧
      (x ^ 2 = ∑ i, ∑ j, T i j ^ 2 ↔ T 0 1 = 0 ∧ T 1 2 = 0 ∧ T 0 2 = 0) := by
  have hx : Real.sqrt (T 0 0 ^ 2 + T 1 1 ^ 2 + T 2 2 ^ 2
      + 8 * (T 0 1 ^ 2 + T 1 2 ^ 2 + T 0 2 ^ 2)) ^ 2
      = T 0 0 ^ 2 + T 1 1 ^ 2 + T 2 2 ^ 2 + 8 * (T 0 1 ^ 2 + T 1 2 ^ 2 + T 0 2 ^ 2) :=
    Real.sq_sqrt (by positivity)
  refine ⟨_, vnorm_strain_value T, hx, ?_⟩
  rw [hx, frobenius_sq_symm T hT]
  constructor
  · intro h
    have h0 : T 0 1 ^ 2 + T 1 2 ^ 2 + T 0 2 ^ 2 = 0 := by linarith
    have a := sq_nonneg (T 0 1)
    have b := sq_nonneg (T 1 2)
    have c := sq_nonneg (T 0 2)
    refine ⟨?_, ?_, ?_⟩
    · exact pow_eq_zero_iff (two_ne_zero) |>.mp (by linarith)
    · exact pow_eq_zero_iff (two_ne_zero) |>.mp (by linarith)
    · exact pow_eq_zero_iff (two_ne_zero) |>.mp (by linarith)
  · rintro ⟨h1, h2, h3⟩
    rw [h1, h2, h3]
    ring

/-- Witness of the amended C5 at the real tensor `sampleSymm3`. -/
theorem vnorm_strain_sq_witness :
    (sampleSymm3 : Matrix (Fin 3) (Fin 3) ℝ).IsSymm ∧
    ∃ x, vnorm Real.sqrt (StrainToVoigt (sampleSymm3 : Matrix (Fin 3) (Fin 3) ℝ)) = some x ∧
      x ^ 2 = (sampleSymm3 : Matrix (Fin 3) (Fin 3) ℝ) 0 0 ^ 2 + sampleSymm3 1 1 ^ 2
        + sampleSymm3 2 2 ^ 2
        + 8 * (sampleSymm3 0 1 ^ 2 + sampleSymm3 1 2 ^ 2 + sampleSymm3 0 2 ^ 2) :=
  ⟨sampleSymm3_isSymm,
    (vnorm_strain_sq sampleSymm3 sampleSymm3_isSymm).imp fun _ h => ⟨h.1, h.2.1⟩⟩

/-- C6: for a symmetric 3x3 tensor `T`, `vnorm (StressToVoigt T)` is defined and equals the
Frobenius norm of `T`: its square is the sum of all `T i j ^ 2`. -/
theorem vnorm_stress_frobenius (T : Matrix (Fin 3) (Fin 3) ℝ) (hT : T.IsSymm) :
    ∃ x, vnorm Real.sqrt (StressToVoigt T) = some x ∧
      x = Real.sqrt (∑ i, ∑ j, T i j ^ 2) ∧ x ^ 2 = ∑ i, ∑ j, T i j ^ 2 := by
  refine ⟨_, vnorm_stress_value T, ?_, ?_⟩
  · rw [frobenius_sq_symm T hT]
  · rw [frobenius_sq_symm T hT]
    exact Real.sq_sqrt (by positivity)

/-- Witness of C6 at the real tensor `sampleSymm3`. -/
theorem vnorm_stress_frobenius_witness :
    (sampleSymm3 : Matrix (Fin 3) (Fin 3) ℝ).IsSymm ∧
    ∃ x, vnorm Real.sqrt (StressToVoigt (sampleSymm3 : Matrix (Fin 3) (Fin 3) ℝ)) = some x ∧
      x = Real.sqrt (∑ i, ∑ j, (sampleSymm3 : Matrix (Fin 3) (Fin 3) ℝ) i j ^ 2) ∧
      x ^ 2 = ∑ i, ∑ j, (sampleSymm3 : Matrix (Fin 3) (Fin 3) ℝ) i j ^ 2 :=
  ⟨sampleSymm3_isSymm, vnorm_stress_frobenius sampleSymm3 sampleSymm3_isSymm⟩

/-! ## Claims on the right polar decomposition

In these statements `solver` is the eigen solver, `F` is invertible (`F.det ≠ 0`), and the
solver run on `Fᵀ * F` returns an exact eigen-decomposition of it. -/

/-- C7: for every invertible real matrix `F` (of any dimension, so for 2 and 3), with `U`,
`Uinv` and `R = F * Uinv` as computed by `PolarDecompositionRU`, `R * U = F`. -/
theorem polarRU_reconstructs {Dim : Nat}
    (solver : Matrix (Fin Dim) (Fin Dim) ℝ → SelfAdjointEigenSolver Dim ℝ)
    (F : Matrix (Fin Dim) (Fin Dim) ℝ) (hF : F.det ≠ 0)
    (hsolver : (solver (Fᵀ * F)).Decomposes (Fᵀ * F)) :
    (PolarDecompositionRU.construct Real.sqrt solver F).R
        = F * (PolarDecompositionRU.construct Real.sqrt solver F).Uinv ∧
    (PolarDecompositionRU.construct Real.sqrt solver F).R
        * (PolarDecompositionRU.construct Real.sqrt solver F).U = F :=
  ⟨rfl, polarRU_R_mul_U solver F hF hsolver⟩

/-- Witness of C7 at the dilation `dilate2`, whose `Fᵀ * F` is `4 • 1`. -/
theorem polarRU_reconstructs_witness :
    (dilate2 : Matrix (Fin 3) (Fin 3) ℝ).det ≠ 0 ∧
    (scalarEigen 3 (4 : ℝ)).Decomposes ((dilate2 : Matrix (Fin 3) (Fin 3) ℝ)ᵀ * dilate2) ∧
    (PolarDecompositionRU.construct Real.sqrt (fun _ => scalarEigen 3 (4 : ℝ)) dilate2).R
        * (PolarDecompositionRU.construct Real.sqrt (fun _ => scalarEigen 3 (4 : ℝ)) dilate2).U
      = dilate2 :=
  ⟨dilate2_det_ne_zero, dilate2_decomposes,
    (polarRU_reconstructs (fun _ => scalarEigen 3 (4 : ℝ)) dilate2 dilate2_det_ne_zero
      dilate2_decomposes).2⟩

/-- C8: for every invertible real matrix `F` (of any dimension, so for 2 and 3), the `R` of
`PolarDecompositionRU` is orthogonal: `Rᵀ * R = 1`. -/
theorem polarRU_orthogonal {Dim : Nat}
    (solver : Matrix (Fin Dim) (Fin Dim) ℝ → SelfAdjointEigenSolver Dim ℝ)
    (F : Matrix (Fin Dim) (Fin Dim) ℝ) (hF : F.det ≠ 0)
    (hsolver : (solver (Fᵀ * F)).Decomposes (Fᵀ * F)) :
    (PolarDecompositionRU.construct Real.sqrt solver F).Rᵀ
        * (PolarDecompositionRU.construct Real.sqrt solver F).R = 1 :=
  polarRU_Rt_mul_R solver F hF hsolver

/-- Witness of C8 at the dilation `dilate2`. -/
theorem polarRU_orthogonal_witness :
    (dilate2 : Matrix (Fin 3) (Fin 3) ℝ).det ≠ 0 ∧
    (scalarEigen 3 (4 : ℝ)).Decomposes ((dilate2 : Matrix (Fin 3) (Fin 3) ℝ)ᵀ * dilate2) ∧
    (PolarDecompositionRU.construct Real.sqrt (fun _ => scalarEigen 3 (4 : ℝ)) dilate2).Rᵀ
        * (PolarDecompositionRU.construct Real.sqrt (fun _ => scalarEigen 3 (4 : ℝ)) dilate2).R
      = 1 :=
  ⟨dilate2_det_ne_zero, dilate2_decomposes,
    polarRU_orthogonal (fun _ => scalarEigen 3 (4 : ℝ)) dilate2 dilate2_det_ne_zero
      dilate2_decomposes⟩

/-- C9 (counterexample): the reflection `reflectZ` is invertible, `Fᵀ * F = 1` is decomposed
exactly by the canonical basis with eigenvalues 1, and the `R` of `PolarDecompositionRU`
has determinant `-1`, not `1`. -/
theorem polarRU_det_counterexample :
    (reflectZ : Matrix (Fin 3) (Fin 3) ℝ).det ≠ 0 ∧
    (scalarEigen 3 (1 : ℝ)).Decomposes ((reflectZ : Matrix (Fin 3) (Fin 3) ℝ)ᵀ * reflectZ) ∧
    (PolarDecompositionRU.construct Real.sqrt (fun _ => scalarEigen 3 (1 : ℝ)) reflectZ).R.det
      = -1 ∧
    (PolarDecompositionRU.construct Real.sqrt (fun _ => scalarEigen 3 (1 : ℝ)) reflectZ).R.det
      ≠ 1 := by
  have hdet : (PolarDecompositionRU.construct Real.sqrt (fun _ => scalarEigen 3 (1 : ℝ))
      reflectZ).R.det = -1 := by
    simp [PolarDecompositionRU.construct, SelfAdjointEigenSolver.operatorInverseSqrt,
      scalarEigen, reflectZ_det]
  refine ⟨by rw [reflectZ_det]; norm_num, reflectZ_decomposes, hdet, ?_⟩
  rw [hdet]
  norm_num

/-- C9 (amended): for every invertible real 3x3 matrix `F`, the `R` of
`PolarDecompositionRU` has determinant `1` when `det F > 0` and `-1` when `det F < 0`. -/
theorem polarRU_det_sign
    (solver : Matrix (Fin 3) (Fin 3) ℝ → SelfAdjointEigenSolver 3 ℝ)
    (F : Matrix (Fin 3) (Fin 3) ℝ) (hF : F.det ≠ 0)
    (hsolver : (solver (Fᵀ * F)).Decomposes (Fᵀ * F)) :
    (0 < F.det → (PolarDecompositionRU.construct Real.sqrt solver F).R.det = 1) ∧
    (F.det < 0 → (PolarDecompositionRU.construct Real.sqrt solver F).R.det = -1) :=
  polarRU_R_det solver F hF hsolver

/-- Witness of the amended C9 at the dilation `dilate2`, of positive determinant. -/
theorem polarRU_det_sign_witness :
    (dilate2 : Matrix (Fin 3) (Fin 3) ℝ).det ≠ 0 ∧
    (scalarEigen 3 (4 : ℝ)).Decomposes ((dilate2 : Matrix (Fin 3) (Fin 3) ℝ)ᵀ * dilate2) ∧
    0 < (dilate2 : Matrix (Fin 3) (Fin 3) ℝ).det ∧
    (PolarDecompositionRU.construct Real.sqrt (fun _ => scalarEigen 3 (4 : ℝ)) dilate2).R.det
      = 1 :=
  have hpos : 0 < (dilate2 : Matrix (Fin 3) (Fin 3) ℝ).det := by
    simp [dilate2, Matrix.det_diagonal]
  ⟨dilate2_det_ne_zero, dilate2_decomposes, hpos,
    (polarRU_det_sign (fun _ => scalarEigen 3 (4 : ℝ)) dilate2 dilate2_det_ne_zero
      dilate2_decomposes).1 hpos⟩

/-- C10: for every invertible real matrix `F` (of any dimension, so for 2 and 3), the
stretch `U` of `PolarDecompositionRU` is symmetric positive-definite with
`U * U = Fᵀ * F`, and `Uinv` is its two-sided inverse. -/
theorem polarRU_stretch {Dim : Nat}
    (solver : Matrix (Fin Dim) (Fin Dim) ℝ → SelfAdjointEigenSolver Dim ℝ)
    (F : Matrix (Fin Dim) (Fin Dim) ℝ) (hF : F.det ≠ 0)
    (hsolver : (solver (Fᵀ * F)).Decomposes (Fᵀ * F)) :
    (PolarDecompositionRU.construct Real.sqrt solver F).U.IsSymm ∧
    (PolarDecompositionRU.construct Real.sqrt solver F).U.PosDef ∧
    (PolarDecompositionRU.construct Real.sqrt solver F).U
      * (PolarDecompositionRU.construct Real.sqrt solver F).U = Fᵀ * F ∧
    (PolarDecompositionRU.construct Real.sqrt solver F).U
      * (PolarDecompositionRU.construct Real.sqrt solver F).Uinv = 1 ∧
    (PolarDecompositionRU.construct Real.sqrt solver F).Uinv
      * (PolarDecompositionRU.construct Real.sqrt solver F).U = 1 :=
  have hpos := eivalues_pos _ F hF hsolver
  ⟨(polarRU_U_posDef solver F hF hsolver).1, (polarRU_U_posDef solver F hF hsolver).2,
    operatorSqrt_mul_self _ _ hsolver hpos,
    operatorSqrt_mul_inverseSqrt _ hsolver.1 hpos,
    operatorInverseSqrt_mul_sqrt _ hsolver.1 hpos⟩

/-- Witness of C10 at the dilation `dilate2`. -/
theorem polarRU_stretch_witness :
    (dilate2 : Matrix (Fin 3) (Fin 3) ℝ).det ≠ 0 ∧
    (scalarEigen 3 (4 : ℝ)).Decomposes ((dilate2 : Matrix (Fin 3) (Fin 3) ℝ)ᵀ * dilate2) ∧
    (PolarDecompositionRU.construct Real.sqrt (fun _ => scalarEigen 3 (4 : ℝ)) dilate2).U.PosDef ∧
    (PolarDecompositionRU.construct Real.sqrt (fun _ => scalarEigen 3 (4 : ℝ)) dilate2).U
      * (PolarDecompositionRU.construct Real.sqrt (fun _ => scalarEigen 3 (4 : ℝ)) dilate2).Uinv
      = 1 :=
  ⟨dilate2_det_ne_zero, dilate2_decomposes,
    (polarRU_stretch (fun _ => scalarEigen 3 (4 : ℝ)) dilate2 dilate2_det_ne_zero
      dilate2_decomposes).2.1,
    (polarRU_stretch (fun _ => scalarEigen 3 (4 : ℝ)) dilate2 dilate2_det_ne_zero
      dilate2_decomposes).2.2.2.1⟩

/-! ## Claims on the left polar decomposition and on the two forms together -/

/-- C11: for every invertible real matrix `F` (of any dimension, so for 2 and 3), with `V`
the principal square root of `F * Fᵀ` (symmetric positive-definite with `V * V = F * Fᵀ`),
`Vinv` its two-sided inverse and `R = Vinv * F` as computed by `PolarDecompositionVR`,
`V * R = F` and `Rᵀ * R = 1`. -/
theorem polarVR_reconstructs {Dim : Nat}
    (solver : Matrix (Fin Dim) (Fin Dim) ℝ → SelfAdjointEigenSolver Dim ℝ)
    (F : Matrix (Fin Dim) (Fin Dim) ℝ) (hF : F.det ≠ 0)
    (hsolver : (solver (F * Fᵀ)).Decomposes (F * Fᵀ)) :
    (PolarDecompositionVR.construct Real.sqrt solver F).R
        = (PolarDecompositionVR.construct Real.sqrt solver F).Vinv * F ∧
    (PolarDecompositionVR.construct Real.sqrt solver F).V
        * (PolarDecompositionVR.construct Real.sqrt solver F).R = F ∧
    (PolarDecompositionVR.construct Real.sqrt solver F).Rᵀ
        * (PolarDecompositionVR.construct Real.sqrt solver F).R = 1 ∧
    (PolarDecompositionVR.construct Real.sqrt solver F).V.IsSymm ∧
    (PolarDecompositionVR.construct Real.sqrt solver F).V.PosDef ∧
    (PolarDecompositionVR.construct Real.sqrt solver F).V
        * (PolarDecompositionVR.construct Real.sqrt solver F).V = F * Fᵀ ∧
    (PolarDecompositionVR.construct Real.sqrt solver F).V
        * (PolarDecompositionVR.construct Real.sqrt solver F).Vinv = 1 ∧
    (PolarDecompositionVR.construct Real.sqrt solver F).Vinv
        * (PolarDecompositionVR.construct Real.sqrt solver F).V = 1 :=
  have hpos := eivalues_pos_left _ F hF hsolver
  ⟨rfl, polarVR_V_mul_R solver F hF hsolver, polarVR_Rt_mul_R solver F hF hsolver,
    conj_diagonal_transpose _ _,
    operatorSqrt_posDef _ hsolver.1 hpos,
    operatorSqrt_mul_self _ _ hsolver hpos,
    operatorSqrt_mul_inverseSqrt _ hsolver.1 hpos,
    operatorInverseSqrt_mul_sqrt _ hsolver.1 hpos⟩

/-- Witness of C11 at the dilation `dilate2`, whose `F * Fᵀ` is `4 • 1`. -/
theorem polarVR_reconstructs_witness :
    (dilate2 : Matrix (Fin 3) (Fin 3) ℝ).det ≠ 0 ∧
    (scalarEigen 3 (4 : ℝ)).Decomposes ((dilate2 : Matrix (Fin 3) (Fin 3) ℝ) * dilate2ᵀ) ∧
    (PolarDecompositionVR.construct Real.sqrt (fun _ => scalarEigen 3 (4 : ℝ)) dilate2).V
        * (PolarDecompositionVR.construct Real.sqrt (fun _ => scalarEigen 3 (4 : ℝ)) dilate2).R
      = dilate2 ∧
    (PolarDecompositionVR.construct Real.sqrt (fun _ => scalarEigen 3 (4 : ℝ)) dilate2).Rᵀ
        * (PolarDecompositionVR.construct Real.sqrt (fun _ => scalarEigen 3 (4 : ℝ)) dilate2).R
      = 1 ∧
    (PolarDecompositionVR.construct Real.sqrt (fun _ => scalarEigen 3 (4 : ℝ)) dilate2).V.IsSymm ∧
    (PolarDecompositionVR.construct Real.sqrt (fun _ => scalarEigen 3 (4 : ℝ)) dilate2).V.PosDef ∧
    (PolarDecompositionVR.construct Real.sqrt (fun _ => scalarEigen 3 (4 : ℝ)) dilate2).V
        * (PolarDecompositionVR.construct Real.sqrt (fun _ => scalarEigen 3 (4 : ℝ)) dilate2).V
      = dilate2 * dilate2ᵀ ∧
    (PolarDecompositionVR.construct Real.sqrt (fun _ => scalarEigen 3 (4 : ℝ)) dilate2).V
        * (PolarDecompositionVR.construct Real.sqrt (fun _ => scalarEigen 3 (4 : ℝ)) dilate2).Vinv
      = 1 ∧
    (PolarDecompositionVR.construct Real.sqrt (fun _ => scalarEigen 3 (4 : ℝ)) dilate2).Vinv
        * (PolarDecompositionVR.construct Real.sqrt (fun _ => scalarEigen 3 (4 : ℝ)) dilate2).V
      = 1 :=
  ⟨dilate2_det_ne_zero, dilate2_decomposes_left,
    (polarVR_reconstructs (fun _ => scalarEigen 3 (4 : ℝ)) dilate2 dilate2_det_ne_zero
      dilate2_decomposes_left).2⟩

/-- C12: for every invertible real matrix `F` (of any dimension, so for 2 and 3), the `R` of
`PolarDecompositionRU` equals the `R` of `PolarDecompositionVR`, and the right stretch `U`
and the left stretch `V` satisfy `U = Rᵀ * V * R`. -/
theorem polar_dual_form {Dim : Nat}
    (solver : Matrix (Fin Dim) (Fin Dim) ℝ → SelfAdjointEigenSolver Dim ℝ)
    (F : Matrix (Fin Dim) (Fin Dim) ℝ) (hF : F.det ≠ 0)
    (hU : (solver (Fᵀ * F)).Decomposes (Fᵀ * F))
    (hV : (solver (F * Fᵀ)).Decomposes (F * Fᵀ)) :
    (PolarDecompositionRU.construct Real.sqrt solver F).R
      = (PolarDecompositionVR.construct Real.sqrt solver F).R ∧
    (PolarDecompositionRU.construct Real.sqrt solver F).U
      = (PolarDecompositionRU.construct Real.sqrt solver F).Rᵀ
        * (PolarDecompositionVR.construct Real.sqrt solver F).V
        * (PolarDecompositionRU.construct Real.sqrt solver F).R :=
  ⟨polar_dual_R_eq solver solver F hF hU hV, polar_dual_U_eq solver solver F hF hU hV⟩

/-- Witness of C12 at the dilation `dilate2`. -/
theorem polar_dual_form_witness :
    (dilate2 : Matrix (Fin 3) (Fin 3) ℝ).det ≠ 0 ∧
    (scalarEigen 3 (4 : ℝ)).Decomposes ((dilate2 : Matrix (Fin 3) (Fin 3) ℝ)ᵀ * dilate2) ∧
    (scalarEigen 3 (4 : ℝ)).Decomposes ((dilate2 : Matrix (Fin 3) (Fin 3) ℝ) * dilate2ᵀ) ∧
    (PolarDecompositionRU.construct Real.sqrt (fun _ => scalarEigen 3 (4 : ℝ)) dilate2).R
      = (PolarDecompositionVR.construct Real.sqrt (fun _ => scalarEigen 3 (4 : ℝ)) dilate2).R :=
  ⟨dilate2_det_ne_zero, dilate2_decomposes, dilate2_decomposes_left,
    (polar_dual_form (fun _ => scalarEigen 3 (4 : ℝ)) dilate2 dilate2_det_ne_zero
      dilate2_decomposes dilate2_decomposes_left).1⟩

/-! ## Claims on the expander -/

/-- C13 (defect of the code): expanding the 2x2 matrix `sampleSymm2` by the 3x3 matrix
`sampleSymm3` yields no matrix, where the claim expects a 6x6 matrix: the shape of
`MatrixType` is computed from the members `RowsAtComplieTime` and `ColsAtComplieTime`,
which no matrix type declares.  The functor itself computes the expected entry at (4,5),
`A(1,1) * B(1,2)`. -/
theorem expand_matrix_fails :
    expand_matrix (sampleSymm2 : Matrix (Fin 2) (Fin 2) ℚ)
      (sampleSymm3 : Matrix (Fin 3) (Fin 3) ℚ) = none ∧
    expand_functor.MatrixType 2 2 3 3 = none ∧
    compileTimeMember 2 2 "RowsAtComplieTime" = none ∧
    expand_functor.call
      { arg := (sampleSymm2 : Matrix (Fin 2) (Fin 2) ℚ),
        exp := (sampleSymm3 : Matrix (Fin 3) (Fin 3) ℚ) } 4 5
      = some ((sampleSymm2 : Matrix (Fin 2) (Fin 2) ℚ) 1 1
          * (sampleSymm3 : Matrix (Fin 3) (Fin 3) ℚ) 1 2) := by
  refine ⟨expand_matrix_eq_none _ _, expand_MatrixType_eq_none _ _ _ _,
    by simp [compileTimeMember], ?_⟩
  simp [expand_functor.call, coeff]

/-! ## Claims on the Voigt functions -/

/-- C14: for every length `L > 3`, `videntity L` is the vector whose first 3 entries are 1
and whose other entries are 0, `vtrace (videntity L) = 3`, and `vtrace v` is the sum of
the first 3 entries of `v`. -/
theorem videntity_vtrace {K : Type} [Field K] (L : Nat) (hL : 3 < L) :
    videntity L = some (fun i : Fin L => if i.val < 3 then (1 : K) else 0) ∧
    (videntity L : Option (Fin L → K)).bind vtrace = some 3 ∧
    ∀ v : Fin L → K, vtrace v
      = some (v ⟨0, by omega⟩ + v ⟨1, by omega⟩ + v ⟨2, by omega⟩) := by
  refine ⟨by simp [videntity, hL], ?_, fun v => ?_⟩
  · simp [videntity, vtrace, hL, Fin.sum_univ_three]
    norm_num
  · simp [vtrace, hL, Fin.sum_univ_three]
    rfl

/-- Witness of C14 at length 6 over the rationals: `trace(identity(6)) = 3`. -/
theorem videntity_vtrace_witness :
    3 < 6 ∧ (videntity 6 : Option (Fin 6 → ℚ)).bind vtrace = some 3 :=
  ⟨by decide, (@videntity_vtrace ℚ _ 6 (by decide)).2.1⟩

/-- C15 (counterexample): a 5x4 matrix and a Voigt vector of length 4 have a matching
column count and a length above 3, and `vprod` still rejects them: the product has 5 rows
and is returned under the type of the vector, of 4 rows. -/
theorem vprod_rectangular_counterexample :
    (3 < 4 ∧ (4 : Nat) = 4) ∧
    vprod (fun _ _ => 1 : Matrix (Fin 5) (Fin 4) ℚ) (fun _ : Fin 4 => (1 : ℚ)) = none :=
  ⟨⟨by decide, rfl⟩, (vprod_none_iff _ _).mpr (by decide)⟩

/-- C15 (amended): `vtrace`, `videntity`, `vmult_off_diag` and `vnorm` are rejected exactly
when the length is at most 3, so a vector of length 3 is never accepted; `vprod` on an
`r` by `c` matrix and a vector of length `L` is rejected exactly when `L ≤ 3`, or `c ≠ L`,
or `r ≠ L`; in particular no `L` by `L` matrix with `L > 3` is rejected. -/
theorem voigt_rejection {K : Type} [Field K] (sqrt : K → K) (L : Nat) (v : Fin L → K) :
    (vtrace v = none ↔ L ≤ 3) ∧
    ((videntity L : Option (Fin L → K)) = none ↔ L ≤ 3) ∧
    (∀ scale : K, vmult_off_diag v scale = none ↔ L ≤ 3) ∧
    (vnorm sqrt v = none ↔ L ≤ 3) ∧
    (∀ (r c : Nat) (M : Matrix (Fin r) (Fin c) K),
      vprod M v = none ↔ L ≤ 3 ∨ c ≠ L ∨ r ≠ L) ∧
    (∀ M : Matrix (Fin L) (Fin L) K, vprod M v = none ↔ L ≤ 3) ∧
    (∀ u : Fin 3 → K, vtrace u = none ∧ vmult_off_diag u 2 = none ∧ vnorm sqrt u = none ∧
      ∀ M : Matrix (Fin 3) (Fin 3) K, vprod M u = none) := by
  refine ⟨vtrace_none_iff v, videntity_none_iff K L, fun scale => vmult_off_diag_none_iff v scale,
    vnorm_none_iff sqrt v, fun r c M => vprod_none_iff M v, fun M => ?_, fun u => ?_⟩
  · rw [vprod_none_iff]
    constructor
    · rintro (h | h | h)
      · exact h
      · exact absurd rfl h
      · exact absurd rfl h
    · exact fun h => Or.inl h
  · exact ⟨(vtrace_none_iff u).mpr le_rfl, (vmult_off_diag_none_iff u 2).mpr le_rfl,
      (vnorm_none_iff sqrt u).mpr le_rfl, fun M => (vprod_none_iff M u).mpr (Or.inl le_rfl)⟩

/-- C16: for every vector `v` of length `L > 3` and every factor `f`, `vmult_off_diag v f`
is a vector of length `L` whose first three entries are those of `v` and whose entry `k` is
`f * v k` for `3 ≤ k < L`; the default factor is 2.  The input is an argument of a pure
function and is not modified. -/
theorem vmult_off_diag_spec {K : Type} [Field K] (L : Nat) (hL : 3 < L) (v : Fin L → K)
    (f : K) :
    ∃ w : Fin L → K, vmult_off_diag v f = some w ∧
      (∀ i : Fin L, i.val < 3 → w i = v i) ∧
      (∀ i : Fin L, 3 ≤ i.val → w i = f * v i) ∧
      (vmult_off_diag_default_scale : K) = 2 := by
  refine ⟨_, vmult_off_diag_eq hL v f, fun i hi => ?_, fun i hi => ?_, rfl⟩
  · simp [Nat.not_le.mpr hi]
  · simp [hi, mul_comm]

/-- Witness of C16 at a rational vector of length 6 and the factor 3. -/
theorem vmult_off_diag_spec_witness :
    3 < 6 ∧ ∃ w : Fin 6 → ℚ, vmult_off_diag (![1, 2, 3, 4, 5, 6] : Fin 6 → ℚ) 3 = some w ∧
      (∀ i : Fin 6, i.val < 3 → w i = (![1, 2, 3, 4, 5, 6] : Fin 6 → ℚ) i) ∧
      (∀ i : Fin 6, 3 ≤ i.val → w i = 3 * (![1, 2, 3, 4, 5, 6] : Fin 6 → ℚ) i) :=
  ⟨by decide, (vmult_off_diag_spec 6 (by decide) (![1, 2, 3, 4, 5, 6] : Fin 6 → ℚ) 3).imp
    fun _ h => ⟨h.1, h.2.1, h.2.2.1⟩⟩

/-- C17: for every `L` by `L` matrix `M` and Voigt vector `v` of length `L > 3`,
`vprod M v = M * vmult_off_diag v 2`: its entry `i` is
`∑_{j<3} M i j * v j + 2 * ∑_{3≤j<L} M i j * v j`. -/
theorem vprod_spec {K : Type} [Field K] (L : Nat) (hL : 3 < L)
    (M : Matrix (Fin L) (Fin L) K) (v : Fin L → K) :
    ∃ w d : Fin L → K, vprod M v = some w ∧ vmult_off_diag v 2 = some d ∧ w = M *ᵥ d ∧
      ∀ i, w i = ∑ j in Finset.univ.filter (fun j : Fin L => j.val < 3), M i j * v j
        + 2 * ∑ j in Finset.univ.filter (fun j : Fin L => 3 ≤ j.val), M i j * v j := by
  refine ⟨_, _, vprod_square L hL M v, vmult_off_diag_eq hL v 2, rfl, fun i => ?_⟩
  simp only [Matrix.mulVec, Matrix.dotProduct]
  rw [← Finset.sum_filter_add_sum_filter_not Finset.univ (fun j : Fin L => j.val < 3)]
  congr 1
  · refine Finset.sum_congr rfl (fun j hj => ?_)
    have : ¬ 3 ≤ j.val := Nat.not_le.mpr (Finset.mem_filter.mp hj).2
    simp [this]
  · rw [Finset.mul_sum]
    refine Finset.sum_congr (by ext j; simp) (fun j hj => ?_)
    have : 3 ≤ j.val := (Finset.mem_filter.mp hj).2
    simp [this]
    ring

/-- Witness of C17 at the 6x6 identity matrix and a rational vector of length 6. -/
theorem vprod_spec_witness :
    3 < 6 ∧ ∃ w d : Fin 6 → ℚ,
      vprod (1 : Matrix (Fin 6) (Fin 6) ℚ) (![1, 2, 3, 4, 5, 6] : Fin 6 → ℚ) = some w ∧
      vmult_off_diag (![1, 2, 3, 4, 5, 6] : Fin 6 → ℚ) 2 = some d ∧
      w = (1 : Matrix (Fin 6) (Fin 6) ℚ) *ᵥ d :=
  ⟨by decide,
    (vprod_spec 6 (by decide) (1 : Matrix (Fin 6) (Fin 6) ℚ) (![1, 2, 3, 4, 5, 6])).imp
      fun _ h => h.imp fun _ h2 => ⟨h2.1, h2.2.1, h2.2.2.1⟩⟩

/-! ## Claims on the Voigt to tensor conversions -/

/-- C18: every Voigt to tensor conversion returns a symmetric tensor: for every `v` of
length 6, `VoigtToStrain v` and `VoigtToStress v` are symmetric with diagonal
`(v0, v1, v2)`, and for every `u` of length 3 the 2D variants are symmetric with diagonal
`(u0, u1)`; strain off-diagonal entries are half the stored value, stress off-diagonal
entries are the stored value. -/
theorem voigt_to_tensor_symm {K : Type} [Field K] (v : Fin 6 → K) (u : Fin 3 → K) :
    ((VoigtToStrain v).IsSymm ∧ (VoigtToStress v).IsSymm ∧
      (VoigtToStrain2D u).IsSymm ∧ (VoigtToStress2D u).IsSymm) ∧
    (VoigtToStrain v 0 0 = v 0 ∧ VoigtToStrain v 1 1 = v 1 ∧ VoigtToStrain v 2 2 = v 2 ∧
      VoigtToStrain v 0 1 = 1/2 * v 3 ∧ VoigtToStrain v 1 2 = 1/2 * v 4 ∧
      VoigtToStrain v 0 2 = 1/2 * v 5) ∧
    (VoigtToStress v 0 0 = v 0 ∧ VoigtToStress v 1 1 = v 1 ∧ VoigtToStress v 2 2 = v 2 ∧
      VoigtToStress v 0 1 = v 3 ∧ VoigtToStress v 1 2 = v 4 ∧ VoigtToStress v 0 2 = v 5) ∧
    (VoigtToStrain2D u 0 0 = u 0 ∧ VoigtToStrain2D u 1 1 = u 1 ∧
      VoigtToStrain2D u 0 1 = 1/2 * u 2) ∧
    (VoigtToStress2D u 0 0 = u 0 ∧ VoigtToStress2D u 1 1 = u 1 ∧ VoigtToStress2D u 0 1 = u 2) := by
  refine ⟨⟨?_, ?_, ?_, ?_⟩, ⟨rfl, rfl, rfl, rfl, rfl, rfl⟩, ⟨rfl, rfl, rfl, rfl, rfl, rfl⟩,
    ⟨rfl, rfl, rfl⟩, ⟨rfl, rfl, rfl⟩⟩
  · ext i j; fin_cases i <;> fin_cases j <;> rfl
  · ext i j; fin_cases i <;> fin_cases j <;> rfl
  · ext i j; fin_cases i <;> fin_cases j <;> rfl
  · ext i j; fin_cases i <;> fin_cases j <;> rfl

/-- C19: the conversions are inverse in the other direction too, in exact arithmetic: for
every `v` of length 6, `StrainToVoigt (VoigtToStrain v) = v` and
`StressToVoigt (VoigtToStress v) = v`, and for every `u` of length 3,
`StrainToVoigt (VoigtToStrain u) = u`. -/
theorem voigt_roundtrip_reverse {K : Type} [Field K] [CharZero K] (v : Fin 6 → K)
    (u : Fin 3 → K) :
    StrainToVoigt (VoigtToStrain v) = v ∧ StressToVoigt (VoigtToStress v) = v ∧
    StrainToVoigt2D (VoigtToStrain2D u) = u := by
  refine ⟨?_, ?_, ?_⟩
  · ext i
    fin_cases i <;>
      simp [StrainToVoigt, VoigtToStrain, vec6_at_three, vec6_at_four, vec6_at_five]
  · ext i
    fin_cases i <;>
      simp [StressToVoigt, VoigtToStress, vec6_at_three, vec6_at_four, vec6_at_five]
  · ext i
    fin_cases i <;> simp [StrainToVoigt2D, VoigtToStrain2D]

/-- Witness of C19 at rational vectors of lengths 6 and 3. -/
theorem voigt_roundtrip_reverse_witness :
    StrainToVoigt (VoigtToStrain (![1, 2, 3, 4, 5, 6] : Fin 6 → ℚ)) = ![1, 2, 3, 4, 5, 6] ∧
    StressToVoigt (VoigtToStress (![1, 2, 3, 4, 5, 6] : Fin 6 → ℚ)) = ![1, 2, 3, 4, 5, 6] ∧
    StrainToVoigt2D (VoigtToStrain2D (![1, 2, 3] : Fin 3 → ℚ)) = ![1, 2, 3] :=
  voigt_roundtrip_reverse (![1, 2, 3, 4, 5, 6] : Fin 6 → ℚ) (![1, 2, 3] : Fin 3 → ℚ)

/-! ## Claims on the elastic constants -/

/-- C20: for all `E` and `nu` with `E ≠ 0`, `nu ≠ -1` and `nu ≠ 1/2`, in exact arithmetic,
`E (lambda E nu) (mu E nu) = E`, `nu (lambda E nu) (mu E nu) = nu` and
`kappa E nu = lambda E nu + (2/3) * mu E nu`. -/
theorem elastic_roundtrip {K : Type} [Field K] [CharZero K] (E0 nu0 : K) (hE : E0 ≠ 0)
    (h1 : nu0 ≠ -1) (h2 : nu0 ≠ 1/2) :
    E (lambda E0 nu0) (mu E0 nu0) = E0 ∧ nu (lambda E0 nu0) (mu E0 nu0) = nu0 ∧
    kappa E0 nu0 = lambda E0 nu0 + 2/3 * mu E0 nu0 := by
  have ha : 1 + nu0 ≠ 0 := fun h => h1 (by linear_combination h)
  have hb : 1 - 2 * nu0 ≠ 0 := fun h => h2 (by linear_combination (-1/2 : K) * h)
  have hsum : lambda E0 nu0 + mu E0 nu0 = E0 / (2 * (1 + nu0) * (1 - 2 * nu0)) := by
    unfold lambda mu
    field_simp
    ring
  have hsum0 : lambda E0 nu0 + mu E0 nu0 ≠ 0 := by
    rw [hsum]
    exact div_ne_zero hE (mul_ne_zero (mul_ne_zero two_ne_zero ha) hb)
  refine ⟨?_, ?_, ?_⟩
  · unfold E
    rw [div_eq_iff hsum0, hsum]
    unfold lambda mu
    field_simp
    ring
  · unfold nu
    rw [div_eq_iff hsum0, hsum]
    unfold lambda
    field_simp
    ring
  · unfold kappa lambda mu
    field_simp
    ring

/-- Witness of C20 at `E = 200`, `nu = 3/10` over the rationals. -/
theorem elastic_roundtrip_witness :
    (200 : ℚ) ≠ 0 ∧ (3/10 : ℚ) ≠ -1 ∧ (3/10 : ℚ) ≠ 1/2 ∧
    E (lambda (200 : ℚ) (3/10)) (mu (200 : ℚ) (3/10)) = 200 ∧
    nu (lambda (200 : ℚ) (3/10)) (mu (200 : ℚ) (3/10)) = 3/10 ∧
    kappa (200 : ℚ) (3/10) = lambda (200 : ℚ) (3/10) + 2/3 * mu (200 : ℚ) (3/10) :=
  ⟨by norm_num, by norm_num, by norm_num,
    elastic_roundtrip (200 : ℚ) (3/10) (by norm_num) (by norm_num) (by norm_num)⟩

end TC
